import Mathlib

/-
  Verification of the `args` shell-like tokenizer library (src/args.go).

  The scanner (`Scanner.NextToken`) is embedded as a pure step function over an
  explicit scan state plus a driver loop over the remaining input, modelled as a
  `List Char` (the Go code reads runes one at a time from a string-backed
  reader, so the only read error is end-of-stream).  The thin layers
  (`getTokens`, `GetArgsN`, `ParseArgs`, `GetIntOption`) are embedded on top.
-/

namespace args

/-- Character constants used by the scanner (src/args.go lines 20-34), written
via code points. -/
def btickChar : Char := Char.ofNat 96

/-- The single-quote character. -/
def squoteChar : Char := Char.ofNat 39

/-- The double-quote character. -/
def dquoteChar : Char := Char.ofNat 34

/-- The backslash character. -/
def bslashChar : Char := Char.ofNat 92

/-- The opening-brace character. -/
def lbraceChar : Char := Char.ofNat 123

/-- The closing-brace character. -/
def rbraceChar : Char := Char.ofNat 125

/-- The opening-square-bracket character. -/
def lbrackChar : Char := Char.ofNat 91

/-- The closing-square-bracket character. -/
def rbrackChar : Char := Char.ofNat 93

/-- The opening-parenthesis character. -/
def lparenChar : Char := Char.ofNat 40

/-- The closing-parenthesis character. -/
def rparenChar : Char := Char.ofNat 41

/-- The pipe character. -/
def pipeChar : Char := Char.ofNat 124

/-- The greater-than character. -/
def gtChar : Char := Char.ofNat 62

/-- The less-than character. -/
def ltChar : Char := Char.ofNat 60

/-- The hash character. -/
def hashChar : Char := Char.ofNat 35

/-- The dash character (OPTION_CHAR in args.go). -/
def dashChar : Char := Char.ofNat 45

/-- The equals-sign character. -/
def eqChar : Char := Char.ofNat 61

/-- The Unicode replacement character U+FFFD (unicode.ReplacementChar). -/
def fffdChar : Char := Char.ofNat 0xFFFD

/-- ESCAPE_CHAR = backslash (args.go line 21). -/
def ESCAPE_CHAR : Char := bslashChar

/-- NO_QUOTE = unicode.ReplacementChar (args.go line 25), the sentinel for
"no quote active". -/
def NO_QUOTE : Char := fffdChar

/-- QUOTE_CHARS = backtick, single quote, double quote (args.go line 23). -/
def QUOTE_CHARS : List Char := [btickChar, squoteChar, dquoteChar]

/-- SYMBOL_CHARS (args.go line 24): pipe, greater-than, less-than, hash,
opening brace, opening parenthesis, opening square bracket. -/
def SYMBOL_CHARS : List Char :=
  [pipeChar, gtChar, ltChar, hashChar, lbraceChar, lparenChar, lbrackChar]

/-- The BRACKETS map (args.go lines 28-34): opening bracket to its closer. -/
def bracketCloser (c : Char) : Option Char :=
  if c = lbraceChar then some rbraceChar
  else if c = lbrackChar then some rbrackChar
  else if c = lparenChar then some rparenChar
  else none

/-- Go's unicode.IsSpace: the Unicode White Space property (tab through
carriage return, space, NEL, NBSP, and the non-Latin-1 space code points). -/
def isGoSpace (c : Char) : Bool :=
  let n := c.toNat
  decide ((9 ≤ n ∧ n ≤ 13) ∨ n = 32 ∨ n = 133 ∨ n = 160 ∨ n = 5760 ∨
    (8192 ≤ n ∧ n ≤ 8202) ∨ n = 8232 ∨ n = 8233 ∨ n = 8239 ∨ n = 8287 ∨
    n = 12288)

/-- The per-call scan state of Scanner.NextToken (args.go lines 55-59): the
token buffer, the `first` flag, the `escape` flag, the active quote (NO_QUOTE
when none), the stack of expected closing brackets, and the `delim` named
return value.  The stack keeps its top at the head of the list (the Go slice
keeps the top at the end). -/
structure ScanState where
  buf : List Char
  first : Bool
  escape : Bool
  quote : Char
  brackets : List Char
  delim : Nat
deriving DecidableEq

/-- Result of one iteration of the NextToken read loop: either continue with
an updated state, or return a token together with the delimiter and the input
left unconsumed. -/
inductive StepRes where
  | cont (st : ScanState)
  | done (tok : String) (delim : Nat) (rest : List Char)
deriving DecidableEq

/-- The no-open-brackets section of the NextToken loop body (args.go lines
123-155): terminate on unquoted whitespace, or on the active quote character,
else push an in-field bracket when enabled and append the character. -/
def stepFlat (infield : Bool) (st : ScanState) (c : Char) (rest : List Char) :
    StepRes :=
  if isGoSpace c ∧ st.quote = NO_QUOTE then
    StepRes.done (String.mk st.buf) c.toNat rest
  else if c = st.quote then
    StepRes.done (String.mk st.buf) c.toNat rest
  else
    match (if infield then bracketCloser c else none) with
    | some b =>
      StepRes.cont { st with brackets := b :: st.brackets, buf := st.buf ++ [c] }
    | none => StepRes.cont { st with buf := st.buf ++ [c] }

/-- The inside-brackets section of the NextToken loop body (args.go lines
156-183), with `top :: bs` the bracket stack: the character is always
appended; unquoted, the matching closer pops (returning the token when the
stack empties), a quote character opens a nested quote, an opening bracket
pushes; quoted, only the matching quote character closes the quote. -/
def stepBracket (st : ScanState) (c : Char) (rest : List Char) (top : Char)
    (bs : List Char) : StepRes :=
  if st.quote = NO_QUOTE then
    if c = top then
      if bs = [] then StepRes.done (String.mk (st.buf ++ [c])) st.delim rest
      else StepRes.cont { st with buf := st.buf ++ [c], brackets := bs }
    else if c ∈ QUOTE_CHARS then
      StepRes.cont { st with buf := st.buf ++ [c], quote := c }
    else
      match bracketCloser c with
      | some b =>
        StepRes.cont { st with buf := st.buf ++ [c], brackets := b :: top :: bs }
      | none => StepRes.cont { st with buf := st.buf ++ [c] }
  else if c = st.quote then
    StepRes.cont { st with buf := st.buf ++ [c], quote := NO_QUOTE }
  else
    StepRes.cont { st with buf := st.buf ++ [c] }

/-- The common section of the NextToken loop body after the token-start block
(args.go lines 123-183), dispatching on whether the bracket stack is empty. -/
def stepAfterFirst (infield : Bool) (st : ScanState) (c : Char) (rest : List Char) :
    StepRes :=
  match st.brackets with
  | [] => stepFlat infield st c rest
  | top :: bs => stepBracket st c rest top bs

/-- One iteration of the Scanner.NextToken read loop on a successfully read
rune `c`, with `rest` the input following `c` (args.go lines 62-183).  The Go
`if first { ... }` block falls through into the common section with `first`
set to false, mirrored by the `stepAfterFirst` call.  The symbol branch
performs the `io.Copy` of all remaining input (which succeeds on a
string-backed reader). -/
def nextTokenStep (infield : Bool) (st : ScanState) (c : Char) (rest : List Char) :
    StepRes :=
  if c = ESCAPE_CHAR ∧ st.escape = false then
    StepRes.cont { st with escape := true, first := false }
  else if st.escape then
    StepRes.cont { st with escape := false, buf := st.buf ++ [c] }
  else if st.first then
    if isGoSpace c then
      StepRes.cont st
    else if c ∈ QUOTE_CHARS then
      StepRes.cont { st with first := false, quote := c }
    else
      match bracketCloser c with
      | some b =>
        StepRes.cont { st with first := false, delim := c.toNat,
                               brackets := b :: st.brackets, buf := st.buf ++ [c] }
      | none =>
        if c ∈ SYMBOL_CHARS then
          StepRes.done (String.mk (st.buf ++ c :: rest)) st.delim []
        else
          stepAfterFirst infield { st with first := false } c rest
  else
    stepAfterFirst infield st c rest

/-- The result of one Scanner.NextToken call: the token text, the delimiter
code point, the end-of-stream error flag, and the input left unconsumed. -/
structure TokenResult where
  tok : String
  delim : Nat
  err : Bool
  rest : List Char
deriving DecidableEq

/-- The Scanner.NextToken read loop (args.go lines 61-194) running from scan
state `st`.  On end of input it returns the buffer as a final token when
non-empty, and the end-of-stream signal otherwise (args.go lines 184-193). -/
def nextTokenLoop (infield : Bool) (st : ScanState) : List Char → TokenResult
  | [] =>
    if st.buf = [] then ⟨"", st.delim, true, []⟩
    else ⟨String.mk st.buf, st.delim, false, []⟩
  | c :: rest =>
    match nextTokenStep infield st c rest with
    | StepRes.cont st2 => nextTokenLoop infield st2 rest
    | StepRes.done tok d r => ⟨tok, d, false, r⟩

/-- The initial scan state of each NextToken call (args.go lines 55-59). -/
def initState : ScanState := ⟨[], true, false, NO_QUOTE, [], 0⟩

/-- Scanner.NextToken (args.go lines 54-197) on the remaining input of the
scanner, for a given InfieldBrackets configuration. -/
def NextToken (infield : Bool) (input : List Char) : TokenResult :=
  nextTokenLoop infield initState input

/-- The unbounded token-collection loop of getTokens (args.go lines 219-251
with `max <= 0` and `options = false`): call NextToken until it reports an
error, collecting the tokens.  Expressed with a fuel parameter; each
successful NextToken call consumes at least one input character, so
`input.length + 1` fuel always suffices (see `getTokensFuel_stable`). -/
def getTokensFuel (infield : Bool) : Nat → List Char → List String
  | 0, _ => []
  | fuel + 1, input =>
    let r := NextToken infield input
    if r.err then [] else r.tok :: getTokensFuel infield fuel r.rest

/-- All tokens of an input line: getTokens with `max = 0` (the token list of
the pair it returns; the remainder is empty on this path).  This is what
GetTokens, GetArgs and hence ParseArgs consume (args.go lines 200-203,
281-285, 326-328). -/
def getTokensAll (infield : Bool) (input : List Char) : List String :=
  getTokensFuel infield (input.length + 1) input

/-- Drop leading Go-whitespace characters. -/
def trimLeftSpace : List Char → List Char
  | [] => []
  | c :: rest => if isGoSpace c then trimLeftSpace rest else c :: rest

/-- strings.TrimSpace: drop leading and trailing Go-whitespace characters. -/
def trimSpace (s : List Char) : List Char :=
  (trimLeftSpace (trimLeftSpace s).reverse).reverse

/-- The bounded branch of getTokens (args.go lines 214-258) for a positive
`max`: collect up to `max` tokens; on an early end-of-stream error return the
tokens collected so far with an empty remainder (line 247), otherwise read all
remaining input and return it trimmed of surrounding whitespace (lines
253-257). -/
def getTokensPos (infield : Bool) : Nat → List Char → List String × String
  | 0, input => ([], String.mk (trimSpace input))
  | m + 1, input =>
    let r := NextToken infield input
    if r.err then ([], "")
    else
      let p := getTokensPos infield m r.rest
      (r.tok :: p.1, p.2)

/-- getTokens (args.go lines 214-258) for a non-negative `max`: `max = 0`
loops unboundedly (ending with an empty remainder), a positive `max` collects
boundedly.  The `max < 0` option-collection mode belongs to GetOptionTokens
and is not modelled here. -/
def getTokensGo (infield : Bool) (max : Nat) (input : List Char) :
    List String × String :=
  if max = 0 then (getTokensAll infield input, "")
  else getTokensPos infield max input

/-- GetArgsN (args.go lines 288-298) for a non-negative `n`: decrement a
positive `n`, collect with getTokens, and append the remainder as a final
element when it is non-empty. -/
def GetArgsN (infield : Bool) (n : Nat) (line : List Char) : List String :=
  let m := if 0 < n then n - 1 else n
  let p := getTokensGo infield m line
  if p.2 ≠ "" then p.1 ++ [p.2] else p.1

/-- GetArgs (args.go lines 281-285): all tokens of the line (GetTokensN 0,
ignoring the empty remainder and the end-of-stream error). -/
def GetArgs (infield : Bool) (line : List Char) : List String :=
  getTokensAll infield line

/-- The Args result of ParseArgs (args.go lines 306-309): the option map,
modelled as an association list without duplicate keys, plus the positional
arguments. -/
structure Args where
  Options : List (String × String)
  Arguments : List String
deriving DecidableEq

/-- Go map read `m[k]`: look a key up in the association list. -/
def mapLookup : List (String × String) → String → Option String
  | [], _ => none
  | (k, v) :: rest, name => if k = name then some v else mapLookup rest name

/-- Go map write `m[k] = v`: overwrite the key when present, append it
otherwise. -/
def mapSet (m : List (String × String)) (k v : String) : List (String × String) :=
  if (mapLookup m k).isSome then
    m.map (fun p => if p.1 = k then (k, v) else p)
  else m ++ [(k, v)]

/-- strings.HasPrefix(arg, "-"): the first character is a dash. -/
def startsWithDash (s : String) : Bool :=
  match s.data with
  | [] => false
  | c :: _ => c = dashChar

/-- strings.TrimLeft(arg, "-"): drop all leading dashes. -/
def trimLeftDashes : List Char → List Char
  | [] => []
  | c :: rest => if c = dashChar then trimLeftDashes rest else c :: rest

/-- strings.SplitN(arg, "=", 2) when arg contains "=" (args.go lines
346-349): the text before the first equals sign and the text after it;
`none` when there is no equals sign (strings.Contains is false). -/
def splitEq : List Char → Option (List Char × List Char)
  | [] => none
  | c :: rest =>
    if c = eqChar then some ([], rest)
    else (splitEq rest).map (fun p => (c :: p.1, p.2))

/-- The option-consumption loop of ParseArgs (args.go lines 333-355): consume
dash-prefixed tokens from the front, stopping at (and discarding) a literal
`--` or at the first token without a dash prefix; classify each consumed
token into the option map. -/
def parseArgsLoop : List String → List (String × String) →
    List (String × String) × List String
  | [], opts => (opts, [])
  | arg :: rest, opts =>
    if startsWithDash arg = false then (opts, arg :: rest)
    else if arg = String.mk [dashChar, dashChar] then (opts, rest)
    else
      let a := trimLeftDashes arg.data
      match splitEq a with
      | some p => parseArgsLoop rest (mapSet opts (String.mk p.1) (String.mk p.2))
      | none => parseArgsLoop rest (mapSet opts (String.mk a) "")

/-- ParseArgs (args.go lines 326-359): tokenize the whole line (GetArgs, with
InfieldBrackets off) and classify leading dash-prefixed tokens into options;
the remaining tokens are the positional arguments. -/
def ParseArgs (line : List Char) : Args :=
  let p := parseArgsLoop (GetArgs false line) []
  ⟨p.1, p.2⟩

/-- The error outcome of strconv.ParseUint: no error, an invalid character
(ErrSyntax), or an out-of-range value (ErrRange). -/
inductive UintErr where
  | ok
  | badChar
  | overflow
deriving DecidableEq

/-- The optional leading sign of a strconv.ParseInt argument: the negative
flag and the remaining digit string. -/
def stripSign (s : List Char) : Bool × List Char :=
  match s with
  | c :: rest =>
    if c = dashChar then (true, rest)
    else if c = Char.ofNat 43 then (false, rest)
    else (false, s)
  | [] => (false, [])

/-- The loop of strconv.ParseUint(s, 10, 64) with accumulator `n`: scanning
left to right, an invalid character returns (0, ErrSyntax) immediately, and a
digit that would push the value past MaxUint64 returns (MaxUint64, ErrRange)
immediately — whichever comes first.  The cutoff 1844674407370955162 is
MaxUint64/10 + 1, Go's pre-multiplication overflow test. -/
def parseUintGo : List Char → Nat → Nat × UintErr
  | [], n => (n, UintErr.ok)
  | c :: rest, n =>
    if 48 ≤ c.toNat ∧ c.toNat ≤ 57 then
      if 1844674407370955162 ≤ n then
        (18446744073709551615, UintErr.overflow)
      else if 18446744073709551615 < n * 10 + (c.toNat - 48) then
        (18446744073709551615, UintErr.overflow)
      else parseUintGo rest (n * 10 + (c.toNat - 48))
    else (0, UintErr.badChar)

/-- strconv.Atoi via strconv.ParseInt(s, 10, 64) on a 64-bit platform: strip
the optional sign, run ParseUint; an empty digit string or a ParseUint syntax
error yields (0, false); the signed range clamping yields MaxInt64 or
MinInt64 with false (ErrRange, also when ParseUint itself range-errored with
value MaxUint64); otherwise the signed value with true. -/
def atoi (s : List Char) : Int × Bool :=
  if (stripSign s).2 = [] then (0, false)
  else if (parseUintGo (stripSign s).2 0).2 = UintErr.badChar then (0, false)
  else if (stripSign s).1 then
    if 2 ^ 63 < (parseUintGo (stripSign s).2 0).1 then (-(2 ^ 63 : Int), false)
    else (-((parseUintGo (stripSign s).2 0).1 : Int),
      decide ((parseUintGo (stripSign s).2 0).2 = UintErr.ok))
  else
    if 2 ^ 63 ≤ (parseUintGo (stripSign s).2 0).1 then ((2 ^ 63 : Int) - 1, false)
    else (((parseUintGo (stripSign s).2 0).1 : Int),
      decide ((parseUintGo (stripSign s).2 0).2 = UintErr.ok))

/-- Args.GetOption (args.go lines 311-316): the option value when the name is
present in the map, the caller-supplied default otherwise. -/
def Args.GetOption (a : Args) (name def_ : String) : String :=
  match mapLookup a.Options name with
  | some val => val
  | none => def_

/-- Args.GetIntOption (args.go lines 318-324): when the name is present,
return the first component of strconv.Atoi on its value (the error is
discarded); when absent, return the caller-supplied default. -/
def Args.GetIntOption (a : Args) (name : String) (def_ : Int) : Int :=
  match mapLookup a.Options name with
  | some val => (atoi val.data).1
  | none => def_

/-- When the flat section returns a token, the unconsumed input it reports is
exactly the input following the current character. -/
theorem stepFlat_done_rest (infield : Bool) (st : ScanState) (c : Char)
    (rest : List Char) (tok : String) (d : Nat) (r : List Char)
    (h : stepFlat infield st c rest = StepRes.done tok d r) : r = rest := by
  unfold stepFlat at h
  repeat' split at h
  all_goals first
    | exact StepRes.noConfusion h
    | (injection h with h1 h2 h3; exact h3.symm)

/-- When the bracket section returns a token, the unconsumed input it reports
is exactly the input following the current character. -/
theorem stepBracket_done_rest (st : ScanState) (c : Char) (rest : List Char)
    (top : Char) (bs : List Char) (tok : String) (d : Nat) (r : List Char)
    (h : stepBracket st c rest top bs = StepRes.done tok d r) : r = rest := by
  unfold stepBracket at h
  repeat' split at h
  all_goals first
    | exact StepRes.noConfusion h
    | (injection h with h1 h2 h3; exact h3.symm)

/-- When the common section returns a token, the unconsumed input it reports
is exactly the input following the current character. -/
theorem stepAfterFirst_done_rest (infield : Bool) (st : ScanState) (c : Char)
    (rest : List Char) (tok : String) (d : Nat) (r : List Char)
    (h : stepAfterFirst infield st c rest = StepRes.done tok d r) : r = rest := by
  unfold stepAfterFirst at h
  split at h
  · exact stepFlat_done_rest _ _ _ _ _ _ _ h
  · exact stepBracket_done_rest _ _ _ _ _ _ _ _ h

/-- When a step of the scanner returns a token, the unconsumed input it
reports is either the input after the current character or empty (the symbol
branch consumes everything). -/
theorem nextTokenStep_done_rest (infield : Bool) (st : ScanState) (c : Char)
    (rest : List Char) (tok : String) (d : Nat) (r : List Char)
    (h : nextTokenStep infield st c rest = StepRes.done tok d r) :
    r = rest ∨ r = [] := by
  unfold nextTokenStep at h
  repeat' split at h
  all_goals first
    | exact StepRes.noConfusion h
    | (injection h with h1 h2 h3; subst h3; simp)
    | exact Or.inl (stepAfterFirst_done_rest _ _ _ _ _ _ _ h)

/-- The scanner loop never reports more unconsumed input than it was given. -/
theorem nextTokenLoop_rest_le (infield : Bool) :
    ∀ (input : List Char) (st : ScanState),
      (nextTokenLoop infield st input).rest.length ≤ input.length := by
  intro input
  induction input with
  | nil => intro st; unfold nextTokenLoop; split <;> simp
  | cons c rest ih =>
    intro st
    unfold nextTokenLoop
    cases hstep : nextTokenStep infield st c rest with
    | cont st2 =>
      simp only []
      exact le_trans (ih st2) (Nat.le_succ _)
    | done tok d r =>
      simp only []
      rcases nextTokenStep_done_rest infield st c rest tok d r hstep with h | h
      · subst h; exact Nat.le_succ _
      · subst h; simp

/-- A successful NextToken call consumes at least one character. -/
theorem nextToken_rest_lt (infield : Bool) (input : List Char)
    (h : (NextToken infield input).err = false) :
    (NextToken infield input).rest.length < input.length := by
  cases input with
  | nil => simp [NextToken, nextTokenLoop, initState] at h
  | cons c rest =>
    unfold NextToken nextTokenLoop
    cases hstep : nextTokenStep infield initState c rest with
    | cont st2 =>
      simp only []
      exact Nat.lt_succ_of_le (nextTokenLoop_rest_le infield rest st2)
    | done tok d r =>
      simp only []
      rcases nextTokenStep_done_rest infield initState c rest tok d r hstep with h2 | h2
      · subst h2; simp
      · subst h2; simp

/-- When the scanner loop reports the end-of-stream error, the token it
returns is the empty string and no input is left. -/
theorem nextTokenLoop_err (infield : Bool) :
    ∀ (input : List Char) (st : ScanState),
      (nextTokenLoop infield st input).err = true →
      (nextTokenLoop infield st input).tok = "" ∧
        (nextTokenLoop infield st input).rest = [] := by
  intro input
  induction input with
  | nil =>
    intro st h
    unfold nextTokenLoop at *
    split at h <;> simp_all
  | cons c rest ih =>
    intro st h
    unfold nextTokenLoop at h ⊢
    cases hstep : nextTokenStep infield st c rest with
    | cont st2 =>
      try rw [hstep] at h
      try rw [hstep]
      exact ih st2 h
    | done tok d r =>
      try rw [hstep] at h
      simp at h

/-- The fuel parameter of getTokensFuel is irrelevant once it exceeds the
input length: the Go loop runs until the end-of-stream error. -/
theorem getTokensFuel_stable (infield : Bool) :
    ∀ (f g : Nat) (input : List Char), input.length < f → input.length < g →
      getTokensFuel infield f input = getTokensFuel infield g input := by
  intro f
  induction f with
  | zero => intro g input hf; omega
  | succ f ih =>
    intro g input hf hg
    cases g with
    | zero => omega
    | succ g =>
      unfold getTokensFuel
      simp only []
      by_cases herr : (NextToken infield input).err
      · simp [herr]
      · simp only [Bool.not_eq_true] at herr
        simp only [herr, Bool.false_eq_true, if_false]
        have hlt := nextToken_rest_lt infield input herr
        have h1 : (NextToken infield input).rest.length < f := by omega
        have h2 : (NextToken infield input).rest.length < g := by omega
        rw [ih g _ h1 h2]

/-- Unfolding equation for getTokensAll: one NextToken call, then the drain of
what is left. -/
theorem getTokensAll_unfold (infield : Bool) (input : List Char) :
    getTokensAll infield input =
      (let r := NextToken infield input
       if r.err then [] else r.tok :: getTokensAll infield r.rest) := by
  unfold getTokensAll
  conv_lhs => rw [getTokensFuel]
  simp only []
  by_cases herr : (NextToken infield input).err
  · simp [herr]
  · simp only [Bool.not_eq_true] at herr
    simp only [herr, Bool.false_eq_true, if_false]
    have hlt := nextToken_rest_lt infield input herr
    rw [getTokensFuel_stable infield input.length ((NextToken infield input).rest.length + 1)
      (NextToken infield input).rest hlt (Nat.lt_succ_self _)]

/-- Stated from the claim (C3): split on whitespace, except that a character
preceded by an unescaped backslash — whitespace included — is taken literally
and never splits or terminates a token, and the backslash itself is not part
of the token.  `acc` is the token accumulated so far. -/
def splitEsc : List Char → List Char → List (List Char)
  | acc, [] => if acc = [] then [] else [acc]
  | acc, c :: rest =>
    if c = ESCAPE_CHAR then
      match rest with
      | [] => if acc = [] then [] else [acc]
      | d :: rest2 => splitEsc (acc ++ [d]) rest2
    else if isGoSpace c then
      if acc = [] then splitEsc [] rest
      else acc :: splitEsc [] rest
    else splitEsc (acc ++ [c]) rest

/-- Unfolding equation of splitEsc for a non-empty input with an arbitrary
tail. -/
theorem splitEsc_cons (acc : List Char) (c : Char) (rest : List Char) :
    splitEsc acc (c :: rest) =
      if c = ESCAPE_CHAR then
        match rest with
        | [] => if acc = [] then [] else [acc]
        | d :: rest2 => splitEsc (acc ++ [d]) rest2
      else if isGoSpace c then
        if acc = [] then splitEsc [] rest else acc :: splitEsc [] rest
      else splitEsc (acc ++ [c]) rest := by
  cases rest <;> simp [splitEsc]

/-- The character class of claim C3 as written: not a quote character, not a
bracket character (opening or closing), not a symbol character. -/
def plainCharClaim (c : Char) : Bool :=
  !(decide (c ∈ QUOTE_CHARS)) && (bracketCloser c).isNone &&
    !(decide (c ∈ [rbraceChar, rbrackChar, rparenChar])) &&
    !(decide (c ∈ SYMBOL_CHARS))

/-- The amended character class: additionally not the scanner's NO_QUOTE
sentinel U+FFFD, which the scanner treats as a quote terminator. -/
def plainChar (c : Char) : Bool :=
  plainCharClaim c && c != NO_QUOTE

/-- A mid-token scan state over plain input: token accumulated so far, no
quote, no brackets, not at token start. -/
def midState (b : List Char) : ScanState := ⟨b, false, false, NO_QUOTE, [], 0⟩

/-- The scan state right after an escape character over plain input. -/
def escState (b : List Char) : ScanState := ⟨b, false, true, NO_QUOTE, [], 0⟩

/-- The continuation of the token drain when one NextToken call is mid-scan
in state `st`: finish that call, then drain the rest. -/
def drainFrom (infield : Bool) (st : ScanState) (input : List Char) : List String :=
  let r := nextTokenLoop infield st input
  if r.err then [] else r.tok :: getTokensAll infield r.rest

/-- getTokensAll is the drain from the initial scan state. -/
theorem getTokensAll_eq_drainFrom (infield : Bool) (input : List Char) :
    getTokensAll infield input = drainFrom infield initState input := by
  rw [getTokensAll_unfold]; rfl

/-- A continuing scanner step carries the drain to the next state. -/
theorem drainFrom_cont (infield : Bool) (st st2 : ScanState) (c : Char)
    (rest : List Char) (hstep : nextTokenStep infield st c rest = StepRes.cont st2) :
    drainFrom infield st (c :: rest) = drainFrom infield st2 rest := by
  unfold drainFrom
  conv_lhs => rw [nextTokenLoop, hstep]

/-- A finishing scanner step ends the current token of the drain. -/
theorem drainFrom_done (infield : Bool) (st : ScanState) (c : Char)
    (rest r : List Char) (tok : String) (d : Nat)
    (hstep : nextTokenStep infield st c rest = StepRes.done tok d r) :
    drainFrom infield st (c :: rest) = tok :: getTokensAll infield r := by
  unfold drainFrom
  conv_lhs => rw [nextTokenLoop, hstep]
  simp

/-- The useful consequences of membership in the plain character class. -/
theorem plainChar_spec (c : Char) (h : plainChar c = true) :
    c ∉ QUOTE_CHARS ∧ bracketCloser c = none ∧ c ∉ SYMBOL_CHARS ∧ c ≠ NO_QUOTE := by
  simp only [plainChar, plainCharClaim, Bool.and_eq_true, bne_iff_ne,
    Bool.not_eq_true', Option.isNone_iff_eq_none, decide_eq_false_iff_not] at h
  exact ⟨h.1.1.1.1, h.1.1.1.2, h.1.2, h.2⟩

/-- Over plain input, an ordinary character (not escape, not whitespace) is
appended to the buffer whether or not it starts the token. -/
theorem step_plain_ordinary (infield : Bool) (b : List Char) (first : Bool)
    (c : Char) (rest : List Char)
    (hq : c ∉ QUOTE_CHARS) (hbr : bracketCloser c = none) (hsym : c ∉ SYMBOL_CHARS)
    (hnq : c ≠ NO_QUOTE) (hsp : isGoSpace c = false) (hesc : c ≠ ESCAPE_CHAR) :
    nextTokenStep infield ⟨b, first, false, NO_QUOTE, [], 0⟩ c rest =
      StepRes.cont ⟨b ++ [c], false, false, NO_QUOTE, [], 0⟩ := by
  have hbr2 : (if infield then bracketCloser c else none) = none := by
    cases infield <;> simp [hbr]
  cases first <;>
    simp [nextTokenStep, stepAfterFirst, stepFlat, hq, hbr, hsym, hnq, hsp, hesc, hbr2]

/-- At token start, whitespace is skipped and the state is unchanged. -/
theorem step_space_first (infield : Bool) (c : Char) (rest : List Char)
    (hsp : isGoSpace c = true) :
    nextTokenStep infield initState c rest = StepRes.cont initState := by
  have hesc : c ≠ ESCAPE_CHAR := by
    intro he; subst he; exact absurd hsp (by decide)
  simp [nextTokenStep, initState, hesc, hsp]

/-- Mid-token over plain input, unquoted whitespace ends the token. -/
theorem step_space_mid (infield : Bool) (b : List Char) (c : Char)
    (rest : List Char) (hsp : isGoSpace c = true) :
    nextTokenStep infield (midState b) c rest =
      StepRes.done (String.mk b) c.toNat rest := by
  have hesc : c ≠ ESCAPE_CHAR := by
    intro he; subst he; exact absurd hsp (by decide)
  simp [nextTokenStep, midState, stepAfterFirst, stepFlat, hesc, hsp]

/-- An unescaped escape character sets the escape flag without being
appended. -/
theorem step_escape (infield : Bool) (b : List Char) (first : Bool)
    (rest : List Char) :
    nextTokenStep infield ⟨b, first, false, NO_QUOTE, [], 0⟩ ESCAPE_CHAR rest =
      StepRes.cont (escState b) := by
  simp [nextTokenStep, escState]

/-- With the escape flag set, any character is appended verbatim and the flag
is cleared. -/
theorem step_escaped (infield : Bool) (b : List Char) (c : Char)
    (rest : List Char) :
    nextTokenStep infield (escState b) c rest =
      StepRes.cont (midState (b ++ [c])) := by
  by_cases hesc : c = ESCAPE_CHAR <;>
    simp [nextTokenStep, escState, midState, hesc]

/-- An ordinary plain character at token start begins the token. -/
theorem step_ord_first (infield : Bool) (c : Char) (rest : List Char)
    (hq : c ∉ QUOTE_CHARS) (hbr : bracketCloser c = none) (hsym : c ∉ SYMBOL_CHARS)
    (hnq : c ≠ NO_QUOTE) (hsp : isGoSpace c = false) (hesc : c ≠ ESCAPE_CHAR) :
    nextTokenStep infield initState c rest = StepRes.cont (midState [c]) := by
  simpa [initState, midState] using
    step_plain_ordinary infield [] true c rest hq hbr hsym hnq hsp hesc

/-- An ordinary plain character mid-token extends the token. -/
theorem step_ord_mid (infield : Bool) (b : List Char) (c : Char) (rest : List Char)
    (hq : c ∉ QUOTE_CHARS) (hbr : bracketCloser c = none) (hsym : c ∉ SYMBOL_CHARS)
    (hnq : c ≠ NO_QUOTE) (hsp : isGoSpace c = false) (hesc : c ≠ ESCAPE_CHAR) :
    nextTokenStep infield (midState b) c rest =
      StepRes.cont (midState (b ++ [c])) := by
  simpa [midState] using
    step_plain_ordinary infield b false c rest hq hbr hsym hnq hsp hesc

/-- The escape character at token start enters the escape state with an empty
buffer. -/
theorem step_esc_first (infield : Bool) (rest : List Char) :
    nextTokenStep infield initState ESCAPE_CHAR rest =
      StepRes.cont (escState []) := by
  simpa [initState] using step_escape infield [] true rest

/-- The escape character mid-token enters the escape state, keeping the
buffer. -/
theorem step_esc_mid (infield : Bool) (b : List Char) (rest : List Char) :
    nextTokenStep infield (midState b) ESCAPE_CHAR rest =
      StepRes.cont (escState b) := by
  simpa [midState] using step_escape infield b false rest

/-- getTokensAll on empty input is empty. -/
theorem getTokensAll_nil (infield : Bool) : getTokensAll infield [] = [] := rfl

/-- At end of input, the drain from a mid-token state returns the buffer as
the final token. -/
theorem drainFrom_mid_nil (infield : Bool) (b : List Char) (hb : b ≠ []) :
    drainFrom infield (midState b) [] = [String.mk b] := by
  simp [drainFrom, nextTokenLoop, midState, hb, getTokensAll_nil]

/-- At end of input in the escape state, the pending buffer is returned when
non-empty and the stream ends silently otherwise. -/
theorem drainFrom_esc_nil (infield : Bool) (b : List Char) :
    drainFrom infield (escState b) [] =
      if b = [] then [] else [String.mk b] := by
  by_cases hb : b = [] <;>
    simp [drainFrom, nextTokenLoop, escState, hb, getTokensAll_nil]

set_option maxHeartbeats 1000000 in
/-- Main lemma for claim C3: over the plain character class (amended to
exclude the NO_QUOTE sentinel) the scanner drain equals whitespace splitting
with backslash escaping, both from the token start and from any mid-token
state. -/
theorem drain_plain (infield : Bool) :
    ∀ n : Nat, ∀ input : List Char, input.length ≤ n →
      (∀ c ∈ input, plainChar c = true) →
      (getTokensAll infield input = (splitEsc [] input).map String.mk) ∧
      (∀ b : List Char, b ≠ [] →
        drainFrom infield (midState b) input = (splitEsc b input).map String.mk) := by
  intro n
  induction n with
  | zero =>
    intro input hlen hp
    have hnil : input = [] := List.eq_nil_of_length_eq_zero (Nat.le_zero.mp hlen)
    subst hnil
    refine ⟨by simp [getTokensAll_nil, splitEsc], fun b hb => ?_⟩
    rw [drainFrom_mid_nil infield b hb]
    simp [splitEsc, hb]
  | succ n ih =>
    intro input hlen hp
    cases input with
    | nil =>
      refine ⟨by simp [getTokensAll_nil, splitEsc], fun b hb => ?_⟩
      rw [drainFrom_mid_nil infield b hb]
      simp [splitEsc, hb]
    | cons c rest =>
      have hpc : plainChar c = true := hp c (List.mem_cons_self _ _)
      have hpr : ∀ x ∈ rest, plainChar x = true :=
        fun x hx => hp x (List.mem_cons_of_mem _ hx)
      obtain ⟨hq, hbr, hsym, hnq⟩ := plainChar_spec c hpc
      have hlen2 : rest.length ≤ n := by
        simp only [List.length_cons] at hlen; omega
      by_cases hesc : c = ESCAPE_CHAR
      · subst hesc
        constructor
        · rw [getTokensAll_eq_drainFrom,
            drainFrom_cont infield _ _ _ _ (step_esc_first infield rest)]
          cases rest with
          | nil =>
            rw [drainFrom_esc_nil]
            simp [splitEsc]
          | cons d r2 =>
            rw [drainFrom_cont infield _ _ _ _ (step_escaped infield [] d r2)]
            have hr2 : r2.length ≤ n := by
              simp only [List.length_cons] at hlen2; omega
            have hpr2 : ∀ x ∈ r2, plainChar x = true :=
              fun x hx => hpr x (List.mem_cons_of_mem _ hx)
            rw [show ([] : List Char) ++ [d] = [d] from rfl,
              (ih r2 hr2 hpr2).2 [d] (by simp)]
            simp [splitEsc]
        · intro b hb
          rw [drainFrom_cont infield _ _ _ _ (step_esc_mid infield b rest)]
          cases rest with
          | nil =>
            rw [drainFrom_esc_nil]
            simp [splitEsc, hb]
          | cons d r2 =>
            rw [drainFrom_cont infield _ _ _ _ (step_escaped infield b d r2)]
            have hr2 : r2.length ≤ n := by
              simp only [List.length_cons] at hlen2; omega
            have hpr2 : ∀ x ∈ r2, plainChar x = true :=
              fun x hx => hpr x (List.mem_cons_of_mem _ hx)
            rw [(ih r2 hr2 hpr2).2 (b ++ [d]) (by simp)]
            simp [splitEsc]
      · by_cases hsp : isGoSpace c
        · constructor
          · rw [getTokensAll_eq_drainFrom,
              drainFrom_cont infield _ _ _ _ (step_space_first infield c rest hsp),
              ← getTokensAll_eq_drainFrom, (ih rest hlen2 hpr).1]
            simp [splitEsc_cons, hesc, hsp]
          · intro b hb
            rw [drainFrom_done infield _ _ _ _ _ _ (step_space_mid infield b c rest hsp),
              (ih rest hlen2 hpr).1]
            simp [splitEsc_cons, hesc, hsp, hb]
        · have hspf : isGoSpace c = false := by simpa using hsp
          constructor
          · rw [getTokensAll_eq_drainFrom,
              drainFrom_cont infield _ _ _ _
                (step_ord_first infield c rest hq hbr hsym hnq hspf hesc),
              (ih rest hlen2 hpr).2 [c] (by simp)]
            simp [splitEsc_cons, hesc, hspf]
          · intro b hb
            rw [drainFrom_cont infield _ _ _ _
                (step_ord_mid infield b c rest hq hbr hsym hnq hspf hesc),
              (ih rest hlen2 hpr).2 (b ++ [c]) (by simp)]
            simp [splitEsc_cons, hesc, hspf]

/-- The input remaining unconsumed after `m` successful NextToken calls;
`none` when the stream ran out before `m` tokens were produced. -/
def restAfter (infield : Bool) : Nat → List Char → Option (List Char)
  | 0, input => some input
  | m + 1, input =>
    let r := NextToken infield input
    if r.err then none else restAfter infield m r.rest

/-- The bounded collection loop produces at most `m` tokens. -/
theorem getTokensPos_length (infield : Bool) :
    ∀ (m : Nat) (input : List Char),
      (getTokensPos infield m input).1.length ≤ m := by
  intro m
  induction m with
  | zero => intro input; simp [getTokensPos]
  | succ m ih =>
    intro input
    unfold getTokensPos
    by_cases herr : (NextToken infield input).err
    · simp [herr]
    · simp only [Bool.not_eq_true] at herr
      simp only [herr, Bool.false_eq_true, if_false, List.length_cons]
      exact Nat.succ_le_succ (ih _)

/-- The remainder returned by the bounded collection loop is the unconsumed
input trimmed of surrounding whitespace, or empty when the stream ran out
early. -/
theorem getTokensPos_rest (infield : Bool) :
    ∀ (m : Nat) (input : List Char),
      (getTokensPos infield m input).2 =
        (match restAfter infield m input with
         | none => ""
         | some u => String.mk (trimSpace u)) := by
  intro m
  induction m with
  | zero => intro input; simp [getTokensPos, restAfter]
  | succ m ih =>
    intro input
    unfold getTokensPos restAfter
    by_cases herr : (NextToken infield input).err
    · simp [herr]
    · simp only [Bool.not_eq_true] at herr
      simp only [herr, Bool.false_eq_true, if_false]
      exact ih _

/-- The drain of the remaining input: repeated NextToken calls until the
end-of-stream error, returning what is left at that point.  Expressed with a
fuel parameter; `input.length + 1` always suffices. -/
def drainRestFuel (infield : Bool) : Nat → List Char → List Char
  | 0, input => input
  | f + 1, input =>
    let r := NextToken infield input
    if r.err then input else drainRestFuel infield f r.rest

/-- The input left after draining all tokens with repeated NextToken calls. -/
def drainRest (infield : Bool) (input : List Char) : List Char :=
  drainRestFuel infield (input.length + 1) input

/-- The fuel of drainRestFuel is irrelevant once it exceeds the input
length. -/
theorem drainRestFuel_stable (infield : Bool) :
    ∀ (f g : Nat) (input : List Char), input.length < f → input.length < g →
      drainRestFuel infield f input = drainRestFuel infield g input := by
  intro f
  induction f with
  | zero => intro g input hf; omega
  | succ f ih =>
    intro g input hf hg
    cases g with
    | zero => omega
    | succ g =>
      unfold drainRestFuel
      simp only []
      by_cases herr : (NextToken infield input).err
      · simp [herr]
      · simp only [Bool.not_eq_true] at herr
        simp only [herr, Bool.false_eq_true, if_false]
        have hlt := nextToken_rest_lt infield input herr
        exact ih g _ (by omega) (by omega)

/-- Unfolding equation for drainRest. -/
theorem drainRest_unfold (infield : Bool) (input : List Char) :
    drainRest infield input =
      (let r := NextToken infield input
       if r.err then input else drainRest infield r.rest) := by
  unfold drainRest
  conv_lhs => rw [drainRestFuel]
  simp only []
  by_cases herr : (NextToken infield input).err
  · simp [herr]
  · simp only [Bool.not_eq_true] at herr
    simp only [herr, Bool.false_eq_true, if_false]
    have hlt := nextToken_rest_lt infield input herr
    exact drainRestFuel_stable infield input.length
      ((NextToken infield input).rest.length + 1) _ hlt (Nat.lt_succ_self _)

/-- After the drain, the next NextToken call reports the end-of-stream
error. -/
theorem drainRest_drained (infield : Bool) :
    ∀ (n : Nat) (input : List Char), input.length ≤ n →
      (NextToken infield (drainRest infield input)).err = true := by
  intro n
  induction n with
  | zero =>
    intro input hlen
    have hnil : input = [] := List.eq_nil_of_length_eq_zero (Nat.le_zero.mp hlen)
    subst hnil
    rw [drainRest_unfold]
    simp [NextToken, nextTokenLoop, initState]
  | succ n ih =>
    intro input hlen
    rw [drainRest_unfold]
    by_cases herr : (NextToken infield input).err
    · simp [herr]
    · simp only [Bool.not_eq_true] at herr
      simp only [herr, Bool.false_eq_true, if_false]
      have hlt := nextToken_rest_lt infield input herr
      exact ih _ (by omega)

/-- The three closing-bracket characters (the values of the BRACKETS map). -/
def isCloserChar (b : Char) : Prop :=
  b = rbraceChar ∨ b = rbrackChar ∨ b = rparenChar

/-- Inversion of the BRACKETS map. -/
theorem bracketCloser_inv (o b : Char) (h : bracketCloser o = some b) :
    (o = lbraceChar ∧ b = rbraceChar) ∨ (o = lbrackChar ∧ b = rbrackChar) ∨
      (o = lparenChar ∧ b = rparenChar) := by
  unfold bracketCloser at h
  split at h
  · exact Or.inl ⟨by assumption, by injection h with h2; exact h2.symm⟩
  · split at h
    · exact Or.inr (Or.inl ⟨by assumption, by injection h with h2; exact h2.symm⟩)
    · split at h
      · exact Or.inr (Or.inr ⟨by assumption, by injection h with h2; exact h2.symm⟩)
      · exact Option.noConfusion h

/-- A closing bracket is not an escape character, not a quote character, not
an opening bracket, and not the NO_QUOTE sentinel. -/
theorem isCloserChar_spec (b : Char) (h : isCloserChar b) :
    b ≠ ESCAPE_CHAR ∧ b ∉ QUOTE_CHARS ∧ bracketCloser b = none ∧ b ≠ NO_QUOTE := by
  rcases h with h | h | h <;> subst h <;> refine ⟨by decide, by decide, ?_, by decide⟩
    <;> decide

/-- The closer paired to an opening bracket is a closing bracket. -/
theorem bracketCloser_closer (o b : Char) (h : bracketCloser o = some b) :
    isCloserChar b := by
  rcases bracketCloser_inv o b h with ⟨h1, h2⟩ | ⟨h1, h2⟩ | ⟨h1, h2⟩ <;>
    subst h2 <;> simp [isCloserChar]

/-- An opening bracket is not an escape character, not a quote character, not
whitespace, and not a closing bracket. -/
theorem bracketOpener_spec (o b : Char) (h : bracketCloser o = some b) :
    o ≠ ESCAPE_CHAR ∧ o ∉ QUOTE_CHARS ∧ isGoSpace o = false ∧ ¬isCloserChar o := by
  rcases bracketCloser_inv o b h with ⟨h1, h2⟩ | ⟨h1, h2⟩ | ⟨h1, h2⟩ <;>
    subst h1 <;> exact ⟨by decide, by decide, by decide, by simp [isCloserChar]; decide⟩

/-- A quote character is not an escape character and not the NO_QUOTE
sentinel. -/
theorem quoteChar_spec (q : Char) (h : q ∈ QUOTE_CHARS) :
    q ≠ ESCAPE_CHAR ∧ q ≠ NO_QUOTE := by
  fin_cases h <;> exact ⟨by decide, by decide⟩

/-- Characters allowed inside a quoted span nested in a bracket region:
anything except the closing quote and the escape character (claim C5,
amended). -/
inductive QBody : Char → List Char → Prop where
  | nil {q : Char} : QBody q []
  | ch {q c : Char} {s : List Char} :
      c ≠ q → c ≠ ESCAPE_CHAR → QBody q s → QBody q (c :: s)

/-- Balanced content of a bracket region whose expected closer is `b`
(stated from claim C5, amended to exclude escape characters): ordinary
characters, nested quoted spans (their quote characters retained), and nested
balanced bracket regions (their delimiters retained). -/
inductive BrBody : Char → List Char → Prop where
  | nil {b : Char} : BrBody b []
  | ord {b c : Char} {s : List Char} :
      c ≠ ESCAPE_CHAR → c ∉ QUOTE_CHARS → bracketCloser c = none → c ≠ b →
      BrBody b s → BrBody b (c :: s)
  | quoted {b q : Char} {s t : List Char} :
      q ∈ QUOTE_CHARS → QBody q s → BrBody b t →
      BrBody b (q :: s ++ q :: t)
  | nested {b o b2 : Char} {s t : List Char} :
      bracketCloser o = some b2 → BrBody b2 s → BrBody b t →
      BrBody b (o :: s ++ b2 :: t)

/-- A scanner step while a bracket is open and a quote is active appends the
character verbatim when it is neither the quote nor the escape character. -/
theorem step_brq (infield : Bool) (buf : List Char) (q top : Char)
    (bs : List Char) (d : Nat) (c : Char) (rest : List Char)
    (hq : q ≠ NO_QUOTE) (hcq : c ≠ q) (hesc : c ≠ ESCAPE_CHAR) :
    nextTokenStep infield ⟨buf, false, false, q, top :: bs, d⟩ c rest =
      StepRes.cont ⟨buf ++ [c], false, false, q, top :: bs, d⟩ := by
  simp [nextTokenStep, stepAfterFirst, stepBracket, hq, hcq, hesc]

/-- A scanner step while a bracket is open closes the active quote on its
matching quote character, still appending it. -/
theorem step_brq_close (infield : Bool) (buf : List Char) (q top : Char)
    (bs : List Char) (d : Nat) (rest : List Char)
    (hq : q ≠ NO_QUOTE) (hesc : q ≠ ESCAPE_CHAR) :
    nextTokenStep infield ⟨buf, false, false, q, top :: bs, d⟩ q rest =
      StepRes.cont ⟨buf ++ [q], false, false, NO_QUOTE, top :: bs, d⟩ := by
  simp [nextTokenStep, stepAfterFirst, stepBracket, hq, hesc]

/-- A scanner step while a bracket is open and no quote is active appends an
ordinary character without changing the stack. -/
theorem step_br_ord (infield : Bool) (buf : List Char) (top : Char)
    (bs : List Char) (d : Nat) (c : Char) (rest : List Char)
    (hesc : c ≠ ESCAPE_CHAR) (hctop : c ≠ top) (hq : c ∉ QUOTE_CHARS)
    (hbr : bracketCloser c = none) :
    nextTokenStep infield ⟨buf, false, false, NO_QUOTE, top :: bs, d⟩ c rest =
      StepRes.cont ⟨buf ++ [c], false, false, NO_QUOTE, top :: bs, d⟩ := by
  simp [nextTokenStep, stepAfterFirst, stepBracket, hesc, hctop, hq, hbr]

/-- A scanner step while a bracket is open and no quote is active opens a
nested quote on a quote character, appending it. -/
theorem step_br_quoteopen (infield : Bool) (buf : List Char) (top : Char)
    (bs : List Char) (d : Nat) (q : Char) (rest : List Char)
    (hq : q ∈ QUOTE_CHARS) (hqtop : q ≠ top) (hesc : q ≠ ESCAPE_CHAR) :
    nextTokenStep infield ⟨buf, false, false, NO_QUOTE, top :: bs, d⟩ q rest =
      StepRes.cont ⟨buf ++ [q], false, false, q, top :: bs, d⟩ := by
  simp [nextTokenStep, stepAfterFirst, stepBracket, hq, hqtop, hesc]

/-- A scanner step while a bracket is open and no quote is active pushes a
nested opening bracket, appending it. -/
theorem step_br_open (infield : Bool) (buf : List Char) (top : Char)
    (bs : List Char) (d : Nat) (o b2 : Char) (rest : List Char)
    (hbr : bracketCloser o = some b2) (hotop : o ≠ top) :
    nextTokenStep infield ⟨buf, false, false, NO_QUOTE, top :: bs, d⟩ o rest =
      StepRes.cont ⟨buf ++ [o], false, false, NO_QUOTE, b2 :: top :: bs, d⟩ := by
  obtain ⟨hesc, hq, hsp, hcl⟩ := bracketOpener_spec o b2 hbr
  simp [nextTokenStep, stepAfterFirst, stepBracket, hesc, hq, hotop, hbr]

/-- A scanner step while more than one bracket is open pops the matching
closer for the innermost one, appending it. -/
theorem step_br_pop (infield : Bool) (buf : List Char) (top : Char)
    (bs : List Char) (d : Nat) (rest : List Char)
    (hesc : top ≠ ESCAPE_CHAR) (hbs : bs ≠ []) :
    nextTokenStep infield ⟨buf, false, false, NO_QUOTE, top :: bs, d⟩ top rest =
      StepRes.cont ⟨buf ++ [top], false, false, NO_QUOTE, bs, d⟩ := by
  simp [nextTokenStep, stepAfterFirst, stepBracket, hesc, hbs]

/-- A scanner step while exactly one bracket is open returns the buffer as the
token when the matching closer arrives, appending it, with the delimiter
unchanged. -/
theorem step_br_final (infield : Bool) (buf : List Char) (top : Char)
    (d : Nat) (rest : List Char) (hesc : top ≠ ESCAPE_CHAR) :
    nextTokenStep infield ⟨buf, false, false, NO_QUOTE, [top], d⟩ top rest =
      StepRes.done (String.mk (buf ++ [top])) d rest := by
  simp [nextTokenStep, stepAfterFirst, stepBracket, hesc]

/-- An opening bracket at token start pushes its closer, appends the bracket,
and records it as the delimiter (args.go lines 102-110). -/
theorem step_open_first (infield : Bool) (o b : Char) (rest : List Char)
    (hbr : bracketCloser o = some b) :
    nextTokenStep infield initState o rest =
      StepRes.cont ⟨[o], false, false, NO_QUOTE, [b], o.toNat⟩ := by
  obtain ⟨hesc, hq, hsp, hcl⟩ := bracketOpener_spec o b hbr
  simp [nextTokenStep, initState, hesc, hq, hsp, hbr]

/-- A continuing scanner step carries the token loop to the next state. -/
theorem nextTokenLoop_cont (infield : Bool) (st st2 : ScanState) (c : Char)
    (rest : List Char) (hstep : nextTokenStep infield st c rest = StepRes.cont st2) :
    nextTokenLoop infield st (c :: rest) = nextTokenLoop infield st2 rest := by
  conv_lhs => rw [nextTokenLoop, hstep]

/-- Consuming a quoted span inside a bracket region appends it verbatim and
returns to the same state. -/
theorem qBody_consume (infield : Bool) :
    ∀ (s : List Char) (q : Char), QBody q s → q ≠ NO_QUOTE →
      ∀ (top : Char) (bs buf : List Char) (d : Nat) (rest : List Char),
        nextTokenLoop infield ⟨buf, false, false, q, top :: bs, d⟩ (s ++ rest) =
          nextTokenLoop infield ⟨buf ++ s, false, false, q, top :: bs, d⟩ rest := by
  intro s q h
  induction h with
  | nil => intro hq top bs buf d rest; simp
  | @ch c s2 hcq hesc hbody ih =>
    intro hq top bs buf d rest
    rw [List.cons_append,
      nextTokenLoop_cont infield _ _ _ _ (step_brq infield buf q top bs d c
        (s2 ++ rest) hq hcq hesc),
      ih hq top bs (buf ++ [c]) d rest]
    simp

/-- Consuming balanced bracket content appends it verbatim and returns to the
same state (stack and quote unchanged). -/
theorem brBody_consume (infield : Bool) :
    ∀ (s : List Char) (b : Char), BrBody b s → isCloserChar b →
      ∀ (bs buf : List Char) (d : Nat) (rest : List Char),
        nextTokenLoop infield ⟨buf, false, false, NO_QUOTE, b :: bs, d⟩ (s ++ rest) =
          nextTokenLoop infield ⟨buf ++ s, false, false, NO_QUOTE, b :: bs, d⟩ rest := by
  intro s b h
  induction h with
  | nil => intro hb bs buf d rest; simp
  | @ord b2 c s2 hesc hq hbr hcb hbody ih =>
    intro hb bs buf d rest
    rw [List.cons_append,
      nextTokenLoop_cont infield _ _ _ _ (step_br_ord infield buf b2 bs d c
        (s2 ++ rest) hesc hcb hq hbr),
      ih hb bs (buf ++ [c]) d rest]
    simp
  | @quoted b2 q s2 t hqm hqs hbody ih =>
    intro hb bs buf d rest
    obtain ⟨hqesc, hqnq⟩ := quoteChar_spec _ hqm
    have hqtop : q ≠ b2 := by
      intro he; subst he
      exact (isCloserChar_spec _ hb).2.1 hqm
    simp only [List.cons_append, List.append_assoc]
    rw [nextTokenLoop_cont infield _ _ _ _ (step_br_quoteopen infield buf b2 bs d q
        (s2 ++ (q :: (t ++ rest))) hqm hqtop hqesc),
      qBody_consume infield s2 q hqs hqnq b2 bs (buf ++ [q]) d (q :: (t ++ rest)),
      nextTokenLoop_cont infield _ _ _ _ (step_brq_close infield (buf ++ [q] ++ s2)
        q b2 bs d (t ++ rest) hqnq hqesc),
      ih hb bs (buf ++ [q] ++ s2 ++ [q]) d rest]
    simp
  | @nested b3 o b2 s2 t hbr hs ht ihs ih =>
    intro hb bs buf d rest
    have hcl2 : isCloserChar b2 := bracketCloser_closer o b2 hbr
    have hotop : o ≠ b3 := by
      intro he; subst he
      rw [(isCloserChar_spec _ hb).2.2.1] at hbr
      exact Option.noConfusion hbr
    simp only [List.cons_append, List.append_assoc]
    rw [nextTokenLoop_cont infield _ _ _ _ (step_br_open infield buf b3 bs d o b2
        (s2 ++ (b2 :: (t ++ rest))) hbr hotop),
      ihs hcl2 (b3 :: bs) (buf ++ [o]) d (b2 :: (t ++ rest)),
      nextTokenLoop_cont infield _ _ _ _ (step_br_pop infield (buf ++ [o] ++ s2)
        b2 (b3 :: bs) d (t ++ rest) (isCloserChar_spec _ hcl2).1 (by simp)),
      ih hb bs (buf ++ [o] ++ s2 ++ [b2]) d rest]
    simp

/-- strconv.Atoi reports ErrSyntax: the digit string after the optional sign
is empty, or ParseUint meets an invalid character before any overflow. -/
def atoiSyntaxErr (s : List Char) : Bool :=
  decide ((stripSign s).2 = []) ||
    decide ((parseUintGo (stripSign s).2 0).2 = UintErr.badChar)

/-- On a syntax error, strconv.Atoi returns 0 with the error flag set. -/
theorem atoi_syntaxErr (s : List Char) (h : atoiSyntaxErr s = true) :
    atoi s = (0, false) := by
  unfold atoiSyntaxErr at h
  unfold atoi
  simp only [Bool.or_eq_true, decide_eq_true_eq] at h
  rcases h with h | h
  · simp [h]
  · by_cases he : (stripSign s).2 = []
    · simp [he]
    · simp [he, h]

/-- When ParseUint reports an out-of-range value, the value it returns is
MaxUint64. -/
theorem parseUintGo_overflow :
    ∀ (ds : List Char) (n : Nat), (parseUintGo ds n).2 = UintErr.overflow →
      (parseUintGo ds n).1 = 18446744073709551615 := by
  intro ds
  induction ds with
  | nil => intro n h; simp [parseUintGo] at h
  | cons c rest ih =>
    intro n h
    by_cases h1 : 48 ≤ c.toNat ∧ c.toNat ≤ 57
    · by_cases h2 : 1844674407370955162 ≤ n
      · simp [parseUintGo, h1, h2]
      · by_cases h3 : 18446744073709551615 < n * 10 + (c.toNat - 48)
        · simp [parseUintGo, h1, h2, h3]
        · simp only [parseUintGo, if_pos h1, if_neg h2, if_neg h3] at h ⊢
          exact ih _ h
    · simp [parseUintGo, h1] at h

/-- When strconv.Atoi fails with a range error (not a syntax error), the
value it returns is the clamped 64-bit bound. -/
theorem atoi_rangeErr (s : List Char) (hse : atoiSyntaxErr s = false)
    (he : (atoi s).2 = false) :
    (atoi s).1 = 2 ^ 63 - 1 ∨ (atoi s).1 = -(2 ^ 63) := by
  unfold atoiSyntaxErr at hse
  simp only [Bool.or_eq_false_iff, decide_eq_false_iff_not] at hse
  obtain ⟨hne, hnb⟩ := hse
  unfold atoi at he ⊢
  rw [if_neg hne, if_neg hnb] at he ⊢
  have hover : (parseUintGo (stripSign s).2 0).2 = UintErr.overflow →
      (parseUintGo (stripSign s).2 0).1 = 18446744073709551615 :=
    parseUintGo_overflow (stripSign s).2 0
  by_cases hneg : (stripSign s).1 = true
  · rw [if_pos hneg] at he ⊢
    by_cases hlt : 2 ^ 63 < (parseUintGo (stripSign s).2 0).1
    · rw [if_pos hlt]
      exact Or.inr rfl
    · rw [if_neg hlt] at he
      simp only [decide_eq_false_iff_not] at he
      cases hk : (parseUintGo (stripSign s).2 0).2 with
      | ok => exact absurd hk he
      | badChar => exact absurd hk hnb
      | overflow =>
        rw [hover hk] at hlt
        exact absurd (by omega) hlt
  · rw [if_neg hneg] at he ⊢
    by_cases hle : 2 ^ 63 ≤ (parseUintGo (stripSign s).2 0).1
    · rw [if_pos hle]
      exact Or.inl rfl
    · rw [if_neg hle] at he
      simp only [decide_eq_false_iff_not] at he
      cases hk : (parseUintGo (stripSign s).2 0).2 with
      | ok => exact absurd hk he
      | badChar => exact absurd hk hnb
      | overflow =>
        rw [hover hk] at hle
        exact absurd (by omega) hle

/-- C1 (corrected): GetIntOption returns the default only when the name is
absent; when the name is present it always returns the first component of
strconv.Atoi on the stored value, the error being discarded — 0 when the
value is syntactically invalid, the clamped 64-bit bound (MaxInt64 or
MinInt64) when the value is out of range, and never the caller-supplied
default. -/
theorem c1_getIntOption_amended (a : Args) (name : String) (d : Int) :
    (mapLookup a.Options name = none → a.GetIntOption name d = d) ∧
    (∀ val, mapLookup a.Options name = some val →
      a.GetIntOption name d = (atoi val.data).1) ∧
    (∀ val, mapLookup a.Options name = some val → atoiSyntaxErr val.data = true →
      a.GetIntOption name d = 0) ∧
    (∀ val, mapLookup a.Options name = some val → atoiSyntaxErr val.data = false →
      (atoi val.data).2 = false →
      a.GetIntOption name d = 2 ^ 63 - 1 ∨ a.GetIntOption name d = -(2 ^ 63)) := by
  refine ⟨fun h => ?_, fun val h => ?_, fun val h hse => ?_, fun val h hse he => ?_⟩
  · unfold Args.GetIntOption
    rw [h]
  · unfold Args.GetIntOption
    rw [h]
  · unfold Args.GetIntOption
    rw [h]
    simp [atoi_syntaxErr val.data hse]
  · have hval : a.GetIntOption name d = (atoi val.data).1 := by
      unfold Args.GetIntOption
      rw [h]
    rw [hval]
    exact atoi_rangeErr val.data hse he

/-- Witness for C1: a present syntactically malformed value yields 0, a
present well-formed value yields its parse, a present out-of-range value with
trailing garbage after the overflowing digits yields the clamped MaxInt64,
and an absent name yields the default. -/
theorem c1_witness :
    (Args.mk [("x", "abc")] []).GetIntOption "x" 5 = 0 ∧
    (Args.mk [("y", "7")] []).GetIntOption "y" 5 = 7 ∧
    (Args.mk [("z", "99999999999999999999x")] []).GetIntOption "z" 5 =
      2 ^ 63 - 1 ∧
    (Args.mk [] []).GetIntOption "x" 5 = 5 :=
  ⟨(c1_getIntOption_amended (Args.mk [("x", "abc")] []) "x" 5).2.2.1 "abc"
      (by decide) (by decide),
   ((c1_getIntOption_amended (Args.mk [("y", "7")] []) "y" 5).2.1 "7"
      (by decide)).trans (by decide),
   ((c1_getIntOption_amended (Args.mk [("z", "99999999999999999999x")] [])
        "z" 5).2.2.2 "99999999999999999999x" (by decide) (by decide)
      (by decide)).resolve_right (by decide),
   (c1_getIntOption_amended (Args.mk [] []) "x" 5).1 (by decide)⟩

/-- Counterexample to C1 as stated: for the option map {x: "abc"}, the value
"abc" fails to parse as an integer, yet GetIntOption("x", 5) returns 0 — not
the caller-supplied default 5. -/
theorem c1_counterexample :
    (Args.mk [("x", "abc")] []).GetIntOption "x" 5 = 0 ∧ (0 : Int) ≠ 5 := by
  decide

/-- C2 (corrected, n ≥ 2): GetArgsN returns the tokens of the bounded
collection loop — at most n-1 of them — followed by the raw unconsumed
remainder trimmed of surrounding whitespace, appended only when non-empty;
the result has at most n elements. -/
theorem c2_getArgsN_amended (infield : Bool) (line : List Char) (n : Nat)
    (hn : 2 ≤ n) :
    (GetArgsN infield n line).length ≤ n ∧
    ∃ ts rem, getTokensPos infield (n - 1) line = (ts, rem) ∧
      ts.length ≤ n - 1 ∧
      GetArgsN infield n line = (if rem = "" then ts else ts ++ [rem]) ∧
      rem = (match restAfter infield (n - 1) line with
             | none => ""
             | some u => String.mk (trimSpace u)) := by
  have hne : ¬(n - 1 = 0) := by omega
  have hGo : GetArgsN infield n line =
      (if (getTokensPos infield (n - 1) line).2 = ""
       then (getTokensPos infield (n - 1) line).1
       else (getTokensPos infield (n - 1) line).1 ++
         [(getTokensPos infield (n - 1) line).2]) := by
    unfold GetArgsN getTokensGo
    simp only []
    rw [if_pos (by omega : 0 < n), if_neg hne]
    by_cases h2 : (getTokensPos infield (n - 1) line).2 = "" <;> simp [h2]
  have hlen := getTokensPos_length infield (n - 1) line
  constructor
  · rw [hGo]
    by_cases h2 : (getTokensPos infield (n - 1) line).2 = "" <;>
      simp [h2] <;> omega
  · exact ⟨(getTokensPos infield (n - 1) line).1,
      (getTokensPos infield (n - 1) line).2, rfl, hlen, hGo,
      getTokensPos_rest infield (n - 1) line⟩

/-- Witness for C2 at n = 2 on the line "a b c". -/
theorem c2_witness :
    (GetArgsN false 2 "a b c".data).length ≤ 2 ∧
    ∃ ts rem, getTokensPos false (2 - 1) "a b c".data = (ts, rem) ∧
      ts.length ≤ 2 - 1 ∧
      GetArgsN false 2 "a b c".data = (if rem = "" then ts else ts ++ [rem]) ∧
      rem = (match restAfter false (2 - 1) "a b c".data with
             | none => ""
             | some u => String.mk (trimSpace u)) :=
  c2_getArgsN_amended false "a b c".data 2 (by decide)

/-- Counterexample to C2 as stated: for n = 1 the Go code passes max = 0 to
getTokens, which collects unboundedly, so GetArgsN("a b", 1) returns two
elements — more than n. -/
theorem c2_counterexample :
    GetArgsN false 1 "a b".data = ["a", "b"] ∧
    ¬((GetArgsN false 1 "a b".data).length ≤ 1) := by
  decide

/-- C3 (corrected): over input lines with no quote, bracket, or symbol
characters — and, as amended, no U+FFFD, which the scanner's NO_QUOTE
sentinel turns into a quote terminator — the token sequence of repeated
NextToken calls equals whitespace splitting with backslash escaping. -/
theorem c3_plain_tokenize_amended (infield : Bool) (line : List Char)
    (hp : ∀ c ∈ line, plainChar c = true) :
    getTokensAll infield line = (splitEsc [] line).map String.mk :=
  (drain_plain infield line.length line le_rfl hp).1

/-- Witness for C3 on "ab\\ cd ef" (an escaped space joining a token). -/
theorem c3_witness :
    getTokensAll false "ab\\ cd ef".data =
      (splitEsc [] "ab\\ cd ef".data).map String.mk ∧
    (splitEsc [] "ab\\ cd ef".data).map String.mk = ["ab cd", "ef"] :=
  ⟨c3_plain_tokenize_amended false "ab\\ cd ef".data (by decide), by decide⟩

/-- Counterexample to C3 as stated: the input a�b (with U+FFFD in the middle)
contains no quote, bracket, or symbol characters, yet the scanner splits it
into two tokens while whitespace splitting keeps it whole. -/
theorem c3_counterexample :
    (∀ c ∈ ['a', fffdChar, 'b'], plainCharClaim c = true) ∧
    getTokensAll false ['a', fffdChar, 'b'] = ["a", "b"] ∧
    (splitEsc [] ['a', fffdChar, 'b']).map String.mk =
      [String.mk ['a', fffdChar, 'b']] ∧
    getTokensAll false ['a', fffdChar, 'b'] ≠
      (splitEsc [] ['a', fffdChar, 'b']).map String.mk := by
  refine ⟨by decide, by decide, by decide, by decide⟩

/-- C4 (confirmed): tokenizing "abc" in double quotes yields the bare token
abc (quotes stripped); tokenizing it with the quotes escaped yields the token
with the quote characters preserved. -/
theorem c4_quote_stripping :
    getTokensAll false "\"abc\"".data = ["abc"] ∧
    getTokensAll false "\\\"abc\\\"".data = ["\"abc\""] := by
  decide

/-- C5 (corrected): for an input line beginning with an opening bracket whose
balanced bracketed region (possibly containing nested quotes and nested
brackets, but — as amended — no escape characters) is followed by its closer,
NextToken returns the entire bracketed text verbatim, delimiters included, as
one single token, whatever the InfieldBrackets setting; the delimiter is the
opening bracket's code point and the rest of the line is untouched. -/
theorem c5_bracket_verbatim_amended (infield : Bool) (o b : Char)
    (s rest : List Char) (hbr : bracketCloser o = some b) (hs : BrBody b s) :
    NextToken infield (o :: (s ++ b :: rest)) =
      ⟨String.mk (o :: (s ++ [b])), o.toNat, false, rest⟩ := by
  have hcl : isCloserChar b := bracketCloser_closer o b hbr
  show nextTokenLoop infield initState (o :: (s ++ b :: rest)) = _
  rw [nextTokenLoop_cont infield _ _ _ _
      (step_open_first infield o b (s ++ b :: rest) hbr),
    brBody_consume infield s b hs hcl [] [o] o.toNat (b :: rest)]
  conv_lhs => rw [nextTokenLoop,
    step_br_final infield ([o] ++ s) b o.toNat rest (isCloserChar_spec _ hcl).1]
  simp

/-- Witness for C5: the bracketed region {"q"[z]} with a nested quoted span
and a nested bracket, under either InfieldBrackets setting. -/
theorem c5_witness :
    NextToken false (lbraceChar ::
        ([dquoteChar, 'q', dquoteChar, lbrackChar, 'z', rbrackChar] ++
          rbraceChar :: [])) =
      ⟨String.mk (lbraceChar ::
        ([dquoteChar, 'q', dquoteChar, lbrackChar, 'z', rbrackChar] ++
          [rbraceChar])), lbraceChar.toNat, false, []⟩ ∧
    NextToken true (lbraceChar ::
        ([dquoteChar, 'q', dquoteChar, lbrackChar, 'z', rbrackChar] ++
          rbraceChar :: [])) =
      ⟨String.mk (lbraceChar ::
        ([dquoteChar, 'q', dquoteChar, lbrackChar, 'z', rbrackChar] ++
          [rbraceChar])), lbraceChar.toNat, false, []⟩ :=
  ⟨c5_bracket_verbatim_amended false lbraceChar rbraceChar
      [dquoteChar, 'q', dquoteChar, lbrackChar, 'z', rbrackChar] [] (by decide)
      (@BrBody.quoted rbraceChar dquoteChar ['q'] [lbrackChar, 'z', rbrackChar]
        (by decide) (@QBody.ch dquoteChar 'q' [] (by decide) (by decide) QBody.nil)
        (@BrBody.nested rbraceChar lbrackChar rbrackChar ['z'] [] (by decide)
          (@BrBody.ord rbrackChar 'z' [] (by decide) (by decide) (by decide)
            (by decide) BrBody.nil)
          BrBody.nil)),
   c5_bracket_verbatim_amended true lbraceChar rbraceChar
      [dquoteChar, 'q', dquoteChar, lbrackChar, 'z', rbrackChar] [] (by decide)
      (@BrBody.quoted rbraceChar dquoteChar ['q'] [lbrackChar, 'z', rbrackChar]
        (by decide) (@QBody.ch dquoteChar 'q' [] (by decide) (by decide) QBody.nil)
        (@BrBody.nested rbraceChar lbrackChar rbrackChar ['z'] [] (by decide)
          (@BrBody.ord rbrackChar 'z' [] (by decide) (by decide) (by decide)
            (by decide) BrBody.nil)
          BrBody.nil))⟩

/-- Counterexample to C5 as stated: the bracketed input {"q"[z]\]} contains
nested quotes and nested brackets, is consumed whole, yet the returned token
{"q"[z]]} is not the bracketed text verbatim — the escape character is
dropped. -/
theorem c5_counterexample :
    (NextToken false [lbraceChar, dquoteChar, 'q', dquoteChar, lbrackChar, 'z',
        rbrackChar, bslashChar, rbrackChar, rbraceChar]).tok =
      String.mk [lbraceChar, dquoteChar, 'q', dquoteChar, lbrackChar, 'z',
        rbrackChar, rbrackChar, rbraceChar] ∧
    (NextToken false [lbraceChar, dquoteChar, 'q', dquoteChar, lbrackChar, 'z',
        rbrackChar, bslashChar, rbrackChar, rbraceChar]).rest = [] ∧
    (NextToken false [lbraceChar, dquoteChar, 'q', dquoteChar, lbrackChar, 'z',
        rbrackChar, bslashChar, rbrackChar, rbraceChar]).tok ≠
      String.mk [lbraceChar, dquoteChar, 'q', dquoteChar, lbrackChar, 'z',
        rbrackChar, bslashChar, rbrackChar, rbraceChar] := by
  decide

/-- C6 (corrected): while the bracket stack is non-empty (mid-token), a step
of the scanner appends the consumed character to the buffer — as part of a
continuing state or of the returned token — except for the escape character:
consumed with no escape pending it is not appended and only sets the escape
flag (the following character is then appended verbatim by the escape
branch). -/
theorem c6_bracket_append_amended (infield : Bool) (st : ScanState) (c : Char)
    (rest : List Char) (hbr : st.brackets ≠ []) (hfirst : st.first = false) :
    (st.escape = false → c = ESCAPE_CHAR →
      nextTokenStep infield st c rest = StepRes.cont { st with escape := true }) ∧
    (st.escape = true ∨ c ≠ ESCAPE_CHAR →
      (∃ st2, nextTokenStep infield st c rest = StepRes.cont st2 ∧
        st2.buf = st.buf ++ [c]) ∨
      nextTokenStep infield st c rest =
        StepRes.done (String.mk (st.buf ++ [c])) st.delim rest) := by
  constructor
  · intro hne hesc
    subst hesc
    have hrec : ({ st with escape := true, first := false } : ScanState) =
        { st with escape := true } := by
      cases st
      simp_all
    simp [nextTokenStep, hne, hrec]
  · intro h
    obtain ⟨top, bs, hstack⟩ : ∃ top bs, st.brackets = top :: bs := by
      cases hst : st.brackets with
      | nil => exact absurd hst hbr
      | cons a l => exact ⟨a, l, rfl⟩
    by_cases hescape : st.escape = true
    · exact Or.inl ⟨{ st with escape := false, buf := st.buf ++ [c] },
        by simp [nextTokenStep, hescape], by simp⟩
    · have hesc2 : st.escape = false := by simpa using hescape
      have hcE : c ≠ ESCAPE_CHAR := by
        rcases h with h | h
        · rw [h] at hesc2; exact absurd hesc2 (by simp)
        · exact h
      have hstep : nextTokenStep infield st c rest = stepBracket st c rest top bs := by
        simp [nextTokenStep, hcE, hesc2, hfirst, stepAfterFirst, hstack]
      rw [hstep]
      unfold stepBracket
      repeat' split
      all_goals first
        | exact Or.inr rfl
        | exact Or.inl ⟨_, rfl, rfl⟩

/-- Witness for C6: an ordinary character consumed inside an open bracket is
appended to the buffer. -/
theorem c6_witness :
    (∃ st2, nextTokenStep false
        ⟨[lbraceChar], false, false, NO_QUOTE, [rbraceChar], 123⟩ 'x' [] =
          StepRes.cont st2 ∧ st2.buf = [lbraceChar] ++ ['x']) ∨
    nextTokenStep false
        ⟨[lbraceChar], false, false, NO_QUOTE, [rbraceChar], 123⟩ 'x' [] =
      StepRes.done (String.mk ([lbraceChar] ++ ['x'])) 123 [] :=
  (c6_bracket_append_amended false
      ⟨[lbraceChar], false, false, NO_QUOTE, [rbraceChar], 123⟩ 'x' []
      (by decide) rfl).2 (Or.inr (by decide))

/-- Counterexample to C6 as stated: inside an open bracket, a consumed
escape character is not appended to the buffer (the state continues with the
buffer unchanged), and at the token level the backslash of {\]} is absent
from the returned token {]}. -/
theorem c6_counterexample :
    nextTokenStep false ⟨[lbraceChar], false, false, NO_QUOTE, [rbraceChar], 123⟩
        bslashChar [] =
      StepRes.cont ⟨[lbraceChar], false, true, NO_QUOTE, [rbraceChar], 123⟩ ∧
    getTokensAll false [lbraceChar, bslashChar, rbrackChar, rbraceChar] =
      [String.mk [lbraceChar, rbrackChar, rbraceChar]] := by
  decide

/-- A symbol character that is not an opening bracket is not the escape
character, not whitespace, and not a quote character. -/
theorem symbolNonBracket_spec (c : Char) (hc : c ∈ SYMBOL_CHARS)
    (hnb : bracketCloser c = none) :
    c ≠ ESCAPE_CHAR ∧ isGoSpace c = false ∧ c ∉ QUOTE_CHARS := by
  fin_cases hc <;> first
    | exact absurd hnb (by decide)
    | exact ⟨by decide, by decide, by decide⟩

/-- At token start, a non-bracket symbol character returns the symbol and all
remaining input as one token, consuming everything (args.go lines 112-120). -/
theorem step_symbol_first (infield : Bool) (c : Char) (rest : List Char)
    (hesc : c ≠ ESCAPE_CHAR) (hsp : isGoSpace c = false) (hq : c ∉ QUOTE_CHARS)
    (hnb : bracketCloser c = none) (hsym : c ∈ SYMBOL_CHARS) :
    nextTokenStep infield initState c rest =
      StepRes.done (String.mk (c :: rest)) 0 [] := by
  simp [nextTokenStep, initState, hesc, hsp, hq, hnb, hsym]

/-- C7 (confirmed): on a line whose first non-whitespace character is a
symbol character that is not an opening bracket, NextToken returns exactly
one token — that character followed by the entire remaining input — with no
error and nothing left unconsumed, and the drain produces no further
tokens. -/
theorem c7_symbol_shortcircuit (infield : Bool) (ws : List Char) (c : Char)
    (rest : List Char) (hws : ∀ x ∈ ws, isGoSpace x = true)
    (hc : c ∈ SYMBOL_CHARS) (hnb : bracketCloser c = none) :
    NextToken infield (ws ++ c :: rest) =
      ⟨String.mk (c :: rest), 0, false, []⟩ ∧
    getTokensAll infield (ws ++ c :: rest) = [String.mk (c :: rest)] := by
  obtain ⟨hesc, hsp, hq⟩ := symbolNonBracket_spec c hc hnb
  induction ws with
  | nil =>
    have hstep := step_symbol_first infield c rest hesc hsp hq hnb hc
    constructor
    · show nextTokenLoop infield initState (c :: rest) = _
      conv_lhs => rw [nextTokenLoop, hstep]
    · rw [List.nil_append, getTokensAll_eq_drainFrom,
        drainFrom_done infield _ _ _ _ _ _ hstep, getTokensAll_nil]
  | cons w ws2 ih =>
    have hw : isGoSpace w = true := hws w (List.mem_cons_self _ _)
    have hws2 : ∀ x ∈ ws2, isGoSpace x = true :=
      fun x hx => hws x (List.mem_cons_of_mem _ hx)
    have hstep := step_space_first infield w (ws2 ++ c :: rest) hw
    constructor
    · show nextTokenLoop infield initState ((w :: ws2) ++ c :: rest) = _
      rw [List.cons_append, nextTokenLoop_cont infield _ _ _ _ hstep]
      exact (ih hws2).1
    · rw [List.cons_append, getTokensAll_eq_drainFrom,
        drainFrom_cont infield _ _ _ _ hstep, ← getTokensAll_eq_drainFrom]
      exact (ih hws2).2

/-- Witness for C7 on " #comment text". -/
theorem c7_witness :
    NextToken false ([Char.ofNat 32] ++ hashChar :: "comment text".data) =
      ⟨String.mk (hashChar :: "comment text".data), 0, false, []⟩ ∧
    getTokensAll false ([Char.ofNat 32] ++ hashChar :: "comment text".data) =
      [String.mk (hashChar :: "comment text".data)] :=
  c7_symbol_shortcircuit false [Char.ofNat 32] hashChar "comment text".data
    (by decide) (by decide) (by decide)

/-- C8 (confirmed): once all tokens are drained — including a final token not
terminated by whitespace, returned successfully by the last producing call —
the next NextToken call reports the end-of-stream error with an empty token;
exhaustion is never an empty token paired with success, because the signalled
call is exactly the erroring one. -/
theorem c8_end_of_stream (infield : Bool) (input : List Char) :
    (NextToken infield (drainRest infield input)).err = true ∧
    (NextToken infield (drainRest infield input)).tok = "" := by
  have herr := drainRest_drained infield input.length input le_rfl
  exact ⟨herr, (nextTokenLoop_err infield (drainRest infield input) initState herr).1⟩

/-- C9 (confirmed): ParseArgs on the documented line classifies the options
as {l: "", number: "42", where: "here"} and the arguments as
[-not-an-option-, one, two, three]; the literal two-dash token is consumed
and appears in neither. -/
theorem c9_parseArgs :
    ParseArgs "-l --number=42 -where=here -- -not-an-option- one two three".data =
      ⟨[("l", ""), ("number", "42"), ("where", "here")],
       ["-not-an-option-", "one", "two", "three"]⟩ := by
  decide

/-- C10 (confirmed): NextToken can return an empty token with no error
mid-stream — on the line consisting of an empty double-quoted string followed
by x, the first call returns the empty token with the closing quote (code
point 34) as delimiter and no error, and the drain then still produces the
token x. -/
theorem c10_empty_token_midstream :
    (NextToken false "\"\" x".data).tok = "" ∧
    (NextToken false "\"\" x".data).err = false ∧
    (NextToken false "\"\" x".data).delim = 34 ∧
    getTokensAll false "\"\" x".data = ["", "x"] := by
  decide

end args
